import Mathlib

/-!
Verification development for `aws-sso-config` (`src/main.go`).

The Go program is shallowly embedded: each Go function that the claims
depend on is translated into an executable Lean definition over explicit
data (directory listings, remote response pages, an in-memory model of the
structured config file), and the claims are settled as theorems about
those definitions.
-/

set_option autoImplicit false

deriving instance DecidableEq for Except

namespace AwsSsoConfig

/-! ## Token model — `readSSOToken` (main.go lines 96-147)

The Go function scans `~/.aws/sso/cache` for `*.json` files, parses each
one as an `SSOToken`, filters by the start-domain substring, and keeps the
file with the strictly greatest modification time seen so far. -/

structure SSOToken where
  accessToken : String
  region : String
  startURL : String
deriving DecidableEq, Repr

/-- A directory entry of the SSO cache directory as `readSSOToken` sees it:
the file name, the parse result of its contents (`none` when `os.ReadFile`
fails or `json.Unmarshal` rejects the contents), and its modification time
in Unix seconds (`os.Stat` / `ModTime().Unix()`; `os.Stat` is assumed to
succeed for a file that was just read). -/
structure CacheFile where
  name : String
  parsed : Option SSOToken
  modTime : Nat
deriving DecidableEq, Repr

def listStartsWith : List Char → List Char → Bool
  | _, [] => true
  | [], _ :: _ => false
  | c :: cs, d :: ds => c == d && listStartsWith cs ds

def listContainsSeq : List Char → List Char → Bool
  | [], pat => pat.isEmpty
  | c :: cs, pat => listStartsWith (c :: cs) pat || listContainsSeq cs pat

/-- Go `strings.Contains s sub`: `sub` occurs as a contiguous substring. -/
def strContains (s sub : String) : Bool := listContainsSeq s.data sub.data

/-- Go `strings.HasSuffix s suf`. -/
def strEndsWith (s suf : String) : Bool := listStartsWith s.data.reverse suf.data.reverse

/-- The filter a cache directory entry passes before it can be selected
(main.go lines 107-121): `.json` name suffix, contents parse as a token,
and, when a start domain is given, the token's `startUrl` contains it. -/
def qualifies (startDomain : String) (f : CacheFile) : Bool :=
  strEndsWith f.name ".json" &&
    match f.parsed with
    | none => false
    | some t => startDomain == "" || strContains t.startURL startDomain

/-- The selection loop of `readSSOToken` (main.go lines 103-129):
`selected` and `latestModTime` play the roles of the Go variables
`selectedFile` and `latestModTime` (initially empty / `0`); a qualifying
file replaces the current selection only when its modification time is
strictly greater than `latestModTime`. -/
def selectLoop (startDomain : String) :
    List CacheFile → Option CacheFile → Nat → Option CacheFile
  | [], selected, _ => selected
  | f :: fs, selected, latestModTime =>
    if qualifies startDomain f then
      if latestModTime < f.modTime then selectLoop startDomain fs (some f) f.modTime
      else selectLoop startDomain fs selected latestModTime
    else selectLoop startDomain fs selected latestModTime

def selectCacheFile (startDomain : String) (files : List CacheFile) : Option CacheFile :=
  selectLoop startDomain files none 0

/-- The tail of `readSSOToken` once the directory listing succeeded
(main.go lines 103-146): select a file; an empty selection is the
`Unable to find an AWS SSO token` error. The chosen file is then re-read
and re-parsed (lines 135-144); contents are stable in the model, so the
stored parse result is returned. -/
def readSSOTokenFiles (startDomain : String) (files : List CacheFile) :
    Except Unit SSOToken :=
  match selectCacheFile startDomain files with
  | none => .error ()
  | some f =>
    match f.parsed with
    | some t => .ok t
    | none => .error ()

/-- `readSSOToken` (main.go lines 96-147). The directory listing argument
is `Except.error ()` when `os.ReadDir` fails (line 98-101). -/
def readSSOToken (startDomain : String) (dir : Except Unit (List CacheFile)) :
    Except Unit SSOToken :=
  match dir with
  | .error e => .error e
  | .ok files => readSSOTokenFiles startDomain files

/-- The selection loop restricted to files that already qualify: the shape
`selectLoop` takes on `files.filter (qualifies startDomain)`. -/
def pureLoop : List CacheFile → Option CacheFile → Nat → Option CacheFile
  | [], selected, _ => selected
  | f :: fs, selected, latestModTime =>
    if latestModTime < f.modTime then pureLoop fs (some f) f.modTime
    else pureLoop fs selected latestModTime

def qualifyingFiles (startDomain : String) (files : List CacheFile) : List CacheFile :=
  files.filter (qualifies startDomain)

def maxModTime (files : List CacheFile) : Nat :=
  files.foldr (fun f m => max f.modTime m) 0

lemma filter_cons_pos {α : Type} (p : α → Bool) (a : α) (l : List α) (h : p a = true) :
    (a :: l).filter p = a :: l.filter p := by
  simp [List.filter, h]

lemma filter_cons_neg {α : Type} (p : α → Bool) (a : α) (l : List α) (h : p a = false) :
    (a :: l).filter p = l.filter p := by
  simp [List.filter, h]

lemma find?_cons_pos {α : Type} (p : α → Bool) (a : α) (l : List α) (h : p a = true) :
    (a :: l).find? p = some a := by
  simp [List.find?, h]

lemma find?_cons_neg {α : Type} (p : α → Bool) (a : α) (l : List α) (h : p a = false) :
    (a :: l).find? p = l.find? p := by
  simp [List.find?, h]

lemma selectLoop_eq_pureLoop (startDomain : String) :
    ∀ (files : List CacheFile) (sel : Option CacheFile) (latest : Nat),
      selectLoop startDomain files sel latest
        = pureLoop (files.filter (qualifies startDomain)) sel latest := by
  intro files
  induction files with
  | nil => intro sel latest; rfl
  | cons f fs ih =>
    intro sel latest
    cases hq : qualifies startDomain f with
    | true =>
      rw [filter_cons_pos (qualifies startDomain) f fs hq]
      by_cases hlt : latest < f.modTime
      · simp only [selectLoop, pureLoop, hq, if_true, if_pos hlt]
        exact ih _ _
      · simp only [selectLoop, pureLoop, hq, if_true, if_neg hlt]
        exact ih _ _
    | false =>
      rw [filter_cons_neg (qualifies startDomain) f fs hq]
      simp only [selectLoop, hq, Bool.false_eq_true, if_false]
      exact ih _ _

lemma maxModTime_cons (f : CacheFile) (fs : List CacheFile) :
    maxModTime (f :: fs) = max f.modTime (maxModTime fs) := rfl

lemma le_maxModTime_of_mem {f : CacheFile} {fs : List CacheFile} (h : f ∈ fs) :
    f.modTime ≤ maxModTime fs := by
  induction fs with
  | nil => cases h
  | cons g gs ih =>
    rcases List.mem_cons.mp h with rfl | h'
    · exact le_max_left _ _
    · exact le_trans (ih h') (le_max_right _ _)

/-- When every remaining file's modification time is at most `latest`, the
loop never switches away from the current selection. -/
lemma pureLoop_of_le :
    ∀ (fs : List CacheFile) (sel : Option CacheFile) (latest : Nat),
      maxModTime fs ≤ latest → pureLoop fs sel latest = sel := by
  intro fs
  induction fs with
  | nil => intro sel latest _; rfl
  | cons f gs ih =>
    intro sel latest h
    rw [maxModTime_cons, max_le_iff] at h
    have hnot : ¬ latest < f.modTime := not_lt.mpr h.1
    simp [pureLoop, hnot, ih _ _ h.2]

/-- When some remaining file strictly beats `latest`, the loop ends on the
first file achieving the maximum remaining modification time. -/
lemma pureLoop_of_lt :
    ∀ (fs : List CacheFile) (sel : Option CacheFile) (latest : Nat),
      latest < maxModTime fs →
      pureLoop fs sel latest = fs.find? (fun f => f.modTime == maxModTime fs) := by
  intro fs
  induction fs with
  | nil => intro sel latest h; simp [maxModTime] at h
  | cons f gs ih =>
    intro sel latest h
    by_cases hge : maxModTime gs ≤ f.modTime
    · have hmax : maxModTime (f :: gs) = f.modTime := by
        rw [maxModTime_cons]; exact max_eq_left hge
      rw [hmax] at h ⊢
      rw [find?_cons_pos (fun g => g.modTime == f.modTime) f gs (beq_self_eq_true f.modTime)]
      simp only [pureLoop, if_pos h]
      exact pureLoop_of_le gs (some f) f.modTime hge
    · push_neg at hge
      have hmax : maxModTime (f :: gs) = maxModTime gs := by
        rw [maxModTime_cons]; exact max_eq_right (le_of_lt hge)
      rw [hmax] at h ⊢
      rw [find?_cons_neg (fun g => g.modTime == maxModTime gs) f gs
        (beq_eq_false_iff_ne.mpr (ne_of_lt hge))]
      by_cases hlt : latest < f.modTime
      · simp only [pureLoop, if_pos hlt]
        exact ih (some f) f.modTime hge
      · simp only [pureLoop, if_neg hlt]
        exact ih sel latest h

lemma exists_maxModTime {fs : List CacheFile} (h : 0 < maxModTime fs) :
    ∃ f ∈ fs, f.modTime = maxModTime fs := by
  induction fs with
  | nil => simp [maxModTime] at h
  | cons f gs ih =>
    rw [maxModTime_cons] at h ⊢
    by_cases hge : maxModTime gs ≤ f.modTime
    · exact ⟨f, List.mem_cons_self f gs, (max_eq_left hge).symm⟩
    · push_neg at hge
      have h' : 0 < maxModTime gs := lt_of_le_of_lt (Nat.zero_le _) hge
      rcases ih h' with ⟨g, hg, hgmax⟩
      exact ⟨g, List.mem_cons_of_mem f hg, by rw [max_eq_right (le_of_lt hge), hgmax]⟩

lemma maxModTime_pos_iff (fs : List CacheFile) :
    0 < maxModTime fs ↔ ∃ f ∈ fs, 0 < f.modTime := by
  constructor
  · intro h
    rcases exists_maxModTime h with ⟨f, hf, hmax⟩
    exact ⟨f, hf, hmax ▸ h⟩
  · rintro ⟨f, hf, hp⟩
    exact lt_of_lt_of_le hp (le_maxModTime_of_mem hf)

lemma qualifyingFiles_def (startDomain : String) (files : List CacheFile) :
    qualifyingFiles startDomain files = files.filter (qualifies startDomain) := rfl

lemma pureLoop_mem {f : CacheFile} :
    ∀ (fs : List CacheFile) (sel : Option CacheFile) (latest : Nat),
      pureLoop fs sel latest = some f → sel = some f ∨ f ∈ fs := by
  intro fs
  induction fs with
  | nil => intro sel latest h; exact Or.inl h
  | cons g gs ih =>
    intro sel latest h
    by_cases hlt : latest < g.modTime
    · simp only [pureLoop, if_pos hlt] at h
      rcases ih _ _ h with h' | h'
      · injection h' with h''
        subst h''
        exact Or.inr (List.mem_cons_self _ _)
      · exact Or.inr (List.mem_cons_of_mem g h')
    · simp only [pureLoop, if_neg hlt] at h
      rcases ih _ _ h with h' | h'
      · exact Or.inl h'
      · exact Or.inr (List.mem_cons_of_mem g h')

/-- Everything true of a selected file: it is one of the directory's files,
it qualifies, and its modification time is positive (it had to beat the
initial `latestModTime = 0` strictly). -/
lemma selectCacheFile_some {startDomain : String} {files : List CacheFile} {f : CacheFile}
    (h : selectCacheFile startDomain files = some f) :
    f ∈ files ∧ qualifies startDomain f = true ∧ 0 < f.modTime
      ∧ f.modTime = maxModTime (qualifyingFiles startDomain files) := by
  unfold selectCacheFile at h
  rw [selectLoop_eq_pureLoop, ← qualifyingFiles_def] at h
  have hmem : f ∈ qualifyingFiles startDomain files := by
    rcases pureLoop_mem _ _ _ h with h' | h'
    · cases h'
    · exact h'
  have hmem' := List.mem_filter.mp hmem
  by_cases hmax : 0 < maxModTime (qualifyingFiles startDomain files)
  · rw [pureLoop_of_lt _ none 0 hmax] at h
    have hp := List.find?_some h
    have heq : f.modTime = maxModTime (qualifyingFiles startDomain files) := eq_of_beq hp
    exact ⟨hmem'.1, hmem'.2, heq ▸ hmax, heq⟩
  · push_neg at hmax
    rw [pureLoop_of_le _ none 0 hmax] at h
    cases h

lemma selectCacheFile_of_pos {startDomain : String} {files : List CacheFile}
    (h : 0 < maxModTime (qualifyingFiles startDomain files)) :
    ∃ f, selectCacheFile startDomain files = some f := by
  unfold selectCacheFile
  rw [selectLoop_eq_pureLoop, ← qualifyingFiles_def, pureLoop_of_lt _ none 0 h]
  rcases exists_maxModTime h with ⟨f, hf, hmax⟩
  cases hfind : (qualifyingFiles startDomain files).find?
      (fun g => g.modTime == maxModTime (qualifyingFiles startDomain files)) with
  | some g => exact ⟨g, rfl⟩
  | none =>
    have hnone := List.find?_eq_none.mp hfind f hf
    exact absurd (by rw [hmax]; exact beq_self_eq_true _) hnone

lemma qualifies_parsed {startDomain : String} {f : CacheFile}
    (h : qualifies startDomain f = true) : ∃ t, f.parsed = some t := by
  unfold qualifies at h
  cases hp : f.parsed with
  | none => rw [hp] at h; simp at h
  | some t => exact ⟨t, rfl⟩

lemma readSSOTokenFiles_ok_iff (startDomain : String) (fs : List CacheFile) :
    (∃ t, readSSOTokenFiles startDomain fs = .ok t) ↔
      ∃ f, f ∈ fs ∧ qualifies startDomain f = true ∧ 0 < f.modTime := by
  cases hsel : selectCacheFile startDomain fs with
  | none =>
    constructor
    · rintro ⟨t, ht⟩
      unfold readSSOTokenFiles at ht
      rw [hsel] at ht
      cases ht
    · rintro ⟨f, hmem, hq, hpos⟩
      have hmax : 0 < maxModTime (qualifyingFiles startDomain fs) :=
        (maxModTime_pos_iff _).mpr ⟨f, List.mem_filter.mpr ⟨hmem, hq⟩, hpos⟩
      rcases selectCacheFile_of_pos hmax with ⟨g, hg⟩
      rw [hsel] at hg
      cases hg
  | some f =>
    obtain ⟨hmem, hq, hpos, -⟩ := selectCacheFile_some hsel
    obtain ⟨t, hpt⟩ := qualifies_parsed hq
    constructor
    · intro _
      exact ⟨f, hmem, hq, hpos⟩
    · intro _
      refine ⟨t, ?_⟩
      unfold readSSOTokenFiles
      simp only [hsel]
      rw [hpt]

/-- Concrete cache files used by witnesses and counterexamples. -/
def tokA : SSOToken := ⟨"atok", "us-east-1", "https://a.awsapps.com/start"⟩

def tokB : SSOToken := ⟨"btok", "us-east-1", "https://b.awsapps.com/start"⟩

def fileA : CacheFile := ⟨"a.json", some tokA, 5⟩

def fileB : CacheFile := ⟨"b.json", some tokB, 5⟩

def fileC : CacheFile := ⟨"c.json", some ⟨"ctok", "us-east-1", "https://c.awsapps.com/start"⟩, 3⟩

def badFile : CacheFile := ⟨"bad.json", none, 9⟩

def fileEpoch : CacheFile :=
  ⟨"e.json", some ⟨"etok", "us-east-1", "https://e.awsapps.com/start"⟩, 0⟩

/-- C2 (amended): among the JSON cache files whose parsed startURL contains
the requested domain substring (or all files if the substring is empty),
`readSSOToken`'s selection picks the file with the greatest file-modification
timestamp, provided that greatest timestamp is positive; when two qualifying
files have equal greatest modification timestamps, the one enumerated FIRST is
selected (`find?` returns the first file achieving the maximum: the comparison
`info.ModTime().Unix() > latestModTime` is strict). -/
theorem claim_C2_selection (startDomain : String) (files : List CacheFile)
    (h : 0 < maxModTime (qualifyingFiles startDomain files)) :
    selectCacheFile startDomain files
      = (qualifyingFiles startDomain files).find?
          (fun f => f.modTime == maxModTime (qualifyingFiles startDomain files)) := by
  unfold selectCacheFile
  rw [selectLoop_eq_pureLoop, ← qualifyingFiles_def]
  exact pureLoop_of_lt _ none 0 h

theorem claim_C2_selection_witness :
    0 < maxModTime (qualifyingFiles "" [fileA, fileB, fileC]) ∧
      selectCacheFile "" [fileA, fileB, fileC]
        = (qualifyingFiles "" [fileA, fileB, fileC]).find?
            (fun f => f.modTime == maxModTime (qualifyingFiles "" [fileA, fileB, fileC])) :=
  ⟨by decide, claim_C2_selection "" [fileA, fileB, fileC] (by decide)⟩

/-- C2 counterexample: two qualifying cache files with equal modification
timestamps. The claim says the one enumerated LAST (`fileB`, token `tokB`) is
selected; the code returns the FIRST enumerated file's token `tokA`. -/
theorem claim_C2_cex :
    readSSOToken "" (.ok [fileA, fileB]) = .ok tokA
      ∧ fileA.modTime = fileB.modTime ∧ tokA ≠ tokB
      ∧ qualifies "" fileA = true ∧ qualifies "" fileB = true := by
  decide

/-- C8 (amended): `readSSOToken` returns a token (no error) exactly when
the cache directory was readable and some JSON cache file qualifies (parses
successfully and, when a domain is given, has a startURL containing it) AND has
a positive modification timestamp; appending a malformed-JSON cache file never
changes the outcome (such files are skipped, not fatal). -/
theorem claim_C8_errors (startDomain : String) (d : Except Unit (List CacheFile)) :
    ((∃ t, readSSOToken startDomain d = .ok t) ↔
        ∃ fs, d = .ok fs ∧ ∃ f, f ∈ fs ∧ qualifies startDomain f = true ∧ 0 < f.modTime)
      ∧ ∀ fs bad, bad.parsed = none →
          ((∃ t, readSSOToken startDomain (.ok (fs ++ [bad])) = .ok t) ↔
            (∃ t, readSSOToken startDomain (.ok fs) = .ok t)) := by
  constructor
  · cases d with
    | error e =>
      simp only [readSSOToken]
      constructor
      · rintro ⟨t, ht⟩; cases ht
      · rintro ⟨fs, heq, -⟩; cases heq
    | ok fs =>
      simp only [readSSOToken]
      rw [readSSOTokenFiles_ok_iff]
      constructor
      · rintro ⟨f, h⟩
        exact ⟨fs, rfl, f, h⟩
      · rintro ⟨fs', heq, f, h⟩
        injection heq with heq'
        subst heq'
        exact ⟨f, h⟩
  · intro fs bad hbad
    simp only [readSSOToken]
    rw [readSSOTokenFiles_ok_iff, readSSOTokenFiles_ok_iff]
    have hq : qualifies startDomain bad = false := by
      simp [qualifies, hbad]
    constructor
    · rintro ⟨f, hmem, hfq, hpos⟩
      rcases List.mem_append.mp hmem with h' | h'
      · exact ⟨f, h', hfq, hpos⟩
      · rcases List.mem_singleton.mp h' with rfl
        simp [hq] at hfq
    · rintro ⟨f, hmem, hfq, hpos⟩
      exact ⟨f, List.mem_append.mpr (Or.inl hmem), hfq, hpos⟩

theorem claim_C8_errors_witness :
    (∃ t, readSSOToken "" (.ok [fileA]) = .ok t) ∧
      ((∃ t, readSSOToken "" (.ok ([fileA] ++ [badFile])) = .ok t) ↔
        (∃ t, readSSOToken "" (.ok [fileA]) = .ok t)) :=
  ⟨(claim_C8_errors "" (.ok [fileA])).1.mpr
      ⟨[fileA], rfl, fileA, by decide, by decide, by decide⟩,
   (claim_C8_errors "" (.ok [fileA])).2 [fileA] badFile rfl⟩

/-- C8 counterexample: a cache file that qualifies (`.json`, parses, domain
matches trivially) in a readable directory, yet `readSSOToken` errors: its
modification time is the Unix epoch `0`, which never strictly beats the
initial `latestModTime = 0`. -/
theorem claim_C8_cex :
    qualifies "" fileEpoch = true ∧ readSSOToken "" (.ok [fileEpoch]) = .error () := by
  decide

/-! ## Profile-name derivation (main.go lines 227-237)

`accountName := strings.ToLower(strings.TrimSpace(*account.AccountName))`,
then `strings.ReplaceAll(accountName, " ", "-")`, then a `strings.Map` that
keeps `[a-z0-9-]` and drops (returns `-1` for) everything else. -/

/-- Go `unicode.IsSpace` restricted to the Latin-1 range (the only space
characters that can appear here; every character outside `[a-z0-9-]` is
dropped by the final filter in any case, so higher Unicode space characters
cannot affect the theorems below). -/
def goIsSpace (c : Char) : Bool :=
  decide (c = ' ' ∨ c = '\t' ∨ c = '\n' ∨ c = '\x0b' ∨ c = '\x0c' ∨ c = '\r'
    ∨ c = '\x85' ∨ c = '\xa0')

/-- Go `strings.TrimSpace`. -/
def goTrimSpace (cs : List Char) : List Char :=
  ((cs.dropWhile goIsSpace).reverse.dropWhile goIsSpace).reverse

/-- Go `strings.ToLower`, ASCII case mapping (non-ASCII letters are dropped
by the final filter, so the full Unicode case table is not needed). -/
def goToLower (c : Char) : Char :=
  if 'A' ≤ c ∧ c ≤ 'Z' then Char.ofNat (c.toNat + 32) else c

/-- `strings.ReplaceAll accountName " " "-"`, character-wise (the pattern is
a single character, so the replacement is a character map). -/
def spaceToHyphen (c : Char) : Char := if c = ' ' then '-' else c

/-- The keep-predicate of the `strings.Map` call (main.go lines 230-235):
characters in `[a-z0-9-]` are kept, every other character is dropped. -/
def isAllowedChar (c : Char) : Bool :=
  decide (('a' ≤ c ∧ c ≤ 'z') ∨ ('0' ≤ c ∧ c ≤ '9') ∨ c = '-')

/-- The account-name normalization of `updateAWSConfig` (main.go lines
227-235): trim, lowercase, spaces to hyphens, drop everything outside
`[a-z0-9-]`. -/
def sanitizeAccountName (cs : List Char) : List Char :=
  (((goTrimSpace cs).map goToLower).map spaceToHyphen).filter isAllowedChar

def normalizeName (s : String) : String := String.mk (sanitizeAccountName s.data)

lemma allowed_fixed {c : Char} (h : isAllowedChar c = true) :
    goIsSpace c = false ∧ goToLower c = c ∧ spaceToHyphen c = c := by
  have h' : ('a' ≤ c ∧ c ≤ 'z') ∨ ('0' ≤ c ∧ c ≤ '9') ∨ c = '-' := of_decide_eq_true h
  refine ⟨?_, ?_, ?_⟩
  · apply decide_eq_false
    intro hs
    rcases hs with rfl | rfl | rfl | rfl | rfl | rfl | rfl | rfl <;>
      exact absurd h' (by decide)
  · have hno : ¬('A' ≤ c ∧ c ≤ 'Z') := by
      rintro ⟨hA, hZ⟩
      rcases h' with ⟨h1, h2⟩ | ⟨h1, h2⟩ | rfl
      · exact absurd (le_trans h1 hZ) (by decide)
      · exact absurd (le_trans hA h2) (by decide)
      · exact absurd hA (by decide)
    unfold goToLower
    rw [if_neg hno]
  · have hno : ¬ c = ' ' := by
      rintro rfl
      exact absurd h' (by decide)
    unfold spaceToHyphen
    rw [if_neg hno]

lemma dropWhile_all_false {α : Type} (p : α → Bool) :
    ∀ (l : List α), (∀ c ∈ l, p c = false) → l.dropWhile p = l
  | [], _ => rfl
  | c :: cs, h => by
    rw [List.dropWhile_cons, h c (List.mem_cons_self c cs)]
    simp

lemma goTrimSpace_eq_self {cs : List Char} (h : ∀ c ∈ cs, goIsSpace c = false) :
    goTrimSpace cs = cs := by
  unfold goTrimSpace
  rw [dropWhile_all_false _ cs h,
    dropWhile_all_false _ cs.reverse (fun c hc => h c (List.mem_reverse.mp hc))]
  exact List.reverse_reverse cs

lemma map_id_of_fixed {f : Char → Char} :
    ∀ (l : List Char), (∀ c ∈ l, f c = c) → l.map f = l
  | [], _ => rfl
  | c :: cs, h => by
    rw [List.map_cons, h c (List.mem_cons_self c cs),
      map_id_of_fixed cs (fun d hd => h d (List.mem_cons_of_mem c hd))]

lemma sanitize_idem (cs : List Char) :
    sanitizeAccountName (sanitizeAccountName cs) = sanitizeAccountName cs := by
  have hall : ∀ c ∈ sanitizeAccountName cs, isAllowedChar c = true :=
    fun c hc => (List.mem_filter.mp hc).2
  show (((goTrimSpace (sanitizeAccountName cs)).map goToLower).map spaceToHyphen).filter
      isAllowedChar = sanitizeAccountName cs
  rw [goTrimSpace_eq_self (fun c hc => (allowed_fixed (hall c hc)).1),
    map_id_of_fixed _ (fun c hc => (allowed_fixed (hall c hc)).2.1),
    map_id_of_fixed _ (fun c hc => (allowed_fixed (hall c hc)).2.2)]
  exact List.filter_eq_self.mpr (fun c hc => hall c hc)

/-- C9: profile-name derivation (lowercase, trim, replace spaces with
hyphens, drop characters outside `[a-z0-9-]`) is idempotent: normalizing an
already-normalized name yields the same name, for every input string. -/
theorem claim_C9_idempotent (s : String) :
    normalizeName (normalizeName s) = normalizeName s := by
  unfold normalizeName
  exact congrArg String.mk (sanitize_idem s.data)

example : normalizeName "  My Account-1! " = "my-account-1" := by decide
example : normalizeName "MockAccount" = "mockaccount" := by decide

/-! ## Config reconciliation — `updateAWSConfig` (main.go lines 216-293)

The `gopkg.in/ini.v1` file is modelled as a list of named sections, each a
list of key/value pairs, in file order. Section names are unique in a
go-ini `File` (`NewSection` on an existing name returns the existing
section), so `DeleteSection(name)` over the `Sections()` snapshot is the
same as filtering out the matching sections, and `GetSection`/`NewSection`
followed by `SetValue` is an update of the first section of that name. -/

/-- One `AccountInfo` of the remote listing; the Go code dereferences the
`AccountId`/`AccountName` pointers unconditionally, so they are plain
strings here. -/
structure AccountInfo where
  accountId : String
  accountName : String
deriving DecidableEq, Repr

structure IniSection where
  name : String
  keys : List (String × String)
deriving DecidableEq, Repr

/-- go-ini `section.HasKey k`. -/
def IniSection.hasKey (s : IniSection) (k : String) : Bool :=
  s.keys.any (fun kv => kv.1 == k)

/-- go-ini `section.Key(k).String()`: the value of the first key named `k`,
or `""` when the key is absent. -/
def IniSection.keyString (s : IniSection) (k : String) : String :=
  match s.keys.find? (fun kv => kv.1 == k) with
  | some kv => kv.2
  | none => ""

/-- go-ini `section.Key(k).SetValue(v)`: overwrite the key when present,
append it otherwise. -/
def IniSection.setValue (s : IniSection) (k v : String) : IniSection :=
  if s.hasKey k then
    { s with keys := s.keys.map (fun kv => if kv.1 == k then (k, v) else kv) }
  else
    { s with keys := s.keys ++ [(k, v)] }

/-- go-ini `cfg.GetSection n` (first — and in go-ini only — section named `n`). -/
def getSection? (cfg : List IniSection) (n : String) : Option IniSection :=
  cfg.find? (fun s => s.name == n)

/-- `cfg.GetSection` / on failure `cfg.NewSection` followed by the update
`upd` (main.go lines 272-284): update the section named `n` when present,
append a fresh updated section otherwise. -/
def upsertSection (upd : IniSection → IniSection) (n : String) :
    List IniSection → List IniSection
  | [] => [upd { name := n, keys := [] }]
  | s :: rest =>
    if s.name == n then upd s :: rest else s :: upsertSection upd n rest

/-- The removal-eligibility test (main.go lines 241-247): the four keys
`sso_start_url`, `sso_account_id`, `sso_role_name`, `region` are present and
their values equal the current run's values. (`sso_region` is not examined.) -/
def sectionMatches (startURL accountId roleName region : String) (s : IniSection) : Bool :=
  (s.hasKey "sso_start_url" && s.hasKey "sso_account_id"
      && s.hasKey "sso_role_name" && s.hasKey "region")
    && (s.keyString "sso_start_url" == startURL
      && s.keyString "sso_account_id" == accountId
      && s.keyString "sso_role_name" == roleName
      && s.keyString "region" == region)

/-- The five `SetValue` calls of apply mode (main.go lines 280-284), in
program order. -/
def setProfileKeys (startURL region accountId roleName : String)
    (s : IniSection) : IniSection :=
  ((((s.setValue "sso_start_url" startURL).setValue "sso_region" region).setValue
      "sso_account_id" accountId).setValue "sso_role_name" roleName).setValue
    "region" region

/-- The relevant global `opts` fields of the run. -/
structure RunOpts where
  dryRun : Bool
  remove : Bool
  roleName : String
deriving DecidableEq, Repr

/-- `if profilePrefix != "" { profilePrefix = profilePrefix + "-" }`
(main.go lines 222-224). -/
def effectivePfx (profilePfx : String) : String :=
  if profilePfx == "" then profilePfx else profilePfx ++ "-"

/-- The derived profile name (main.go lines 227-237). -/
def profileNameFor (pfx : String) (a : AccountInfo) : String :=
  pfx ++ normalizeName a.accountName

/-- One iteration of the account loop (main.go lines 226-285). In removal
mode every section passing `sectionMatches` for this account is deleted
(guarded by `!opts.DryRun`); in apply mode with dry-run nothing is touched;
otherwise the profile section is fetched-or-created and its five keys set. -/
def updateForAccount (o : RunOpts) (startURL region pfx : String)
    (cfg : List IniSection) (a : AccountInfo) : List IniSection :=
  if o.remove then
    if o.dryRun then cfg
    else cfg.filter (fun s => !(sectionMatches startURL a.accountId o.roleName region s))
  else if o.dryRun then cfg
  else upsertSection (setProfileKeys startURL region a.accountId o.roleName)
    (profileNameFor pfx a) cfg

/-- The in-memory result of `updateAWSConfig` (main.go lines 216-293) on a
loaded config `cfg`. -/
def updateAWSConfig (o : RunOpts) (cfg : List IniSection) (accounts : List AccountInfo)
    (startURL region profilePfx : String) : List IniSection :=
  accounts.foldl (updateForAccount o startURL region (effectivePfx profilePfx)) cfg

/-- The on-disk content after the run: with dry-run enabled `cfg.SaveTo` is
never reached (main.go lines 287-290), so the file keeps its loaded content. -/
def savedConfig (o : RunOpts) (cfg : List IniSection) (accounts : List AccountInfo)
    (startURL region profilePfx : String) : List IniSection :=
  if o.dryRun then cfg else updateAWSConfig o cfg accounts startURL region profilePfx

lemma updateForAccount_remove {o : RunOpts} (h1 : o.remove = true) (h2 : o.dryRun = false)
    (startURL region pfx : String) (cfg : List IniSection) (a : AccountInfo) :
    updateForAccount o startURL region pfx cfg a
      = cfg.filter (fun s => !(sectionMatches startURL a.accountId o.roleName region s)) := by
  unfold updateForAccount
  rw [h1, h2]
  simp

lemma updateForAccount_apply {o : RunOpts} (h1 : o.remove = false) (h2 : o.dryRun = false)
    (startURL region pfx : String) (cfg : List IniSection) (a : AccountInfo) :
    updateForAccount o startURL region pfx cfg a
      = upsertSection (setProfileKeys startURL region a.accountId o.roleName)
          (profileNameFor pfx a) cfg := by
  unfold updateForAccount
  rw [h1, h2]
  simp

lemma sectionMatches_roleName {startURL accountId roleName region : String} {s : IniSection}
    (h : sectionMatches startURL accountId roleName region s = true) :
    s.keyString "sso_role_name" = roleName := by
  unfold sectionMatches at h
  simp only [Bool.and_eq_true, beq_iff_eq] at h
  exact h.2.1.2

lemma setValue_name (s : IniSection) (k v : String) : (s.setValue k v).name = s.name := by
  unfold IniSection.setValue
  split <;> rfl

lemma setProfileKeys_name (startURL region accountId roleName : String) (s : IniSection) :
    (setProfileKeys startURL region accountId roleName s).name = s.name := by
  unfold setProfileKeys
  rw [setValue_name, setValue_name, setValue_name, setValue_name, setValue_name]

lemma find?_append_none {α : Type} (p : α → Bool) :
    ∀ (l₁ l₂ : List α), l₁.find? p = none → (l₁ ++ l₂).find? p = l₂.find? p
  | [], _, _ => rfl
  | a :: l₁, l₂, h => by
    cases ha : p a with
    | false =>
      rw [find?_cons_neg _ a _ ha] at h
      rw [List.cons_append, find?_cons_neg _ a _ ha]
      exact find?_append_none p l₁ l₂ h
    | true =>
      rw [find?_cons_pos _ a _ ha] at h
      cases h

lemma find?_append_some {α : Type} (p : α → Bool) :
    ∀ (l₁ l₂ : List α) (x : α), l₁.find? p = some x → (l₁ ++ l₂).find? p = some x
  | [], _, _, h => by cases h
  | a :: l₁, l₂, x, h => by
    cases ha : p a with
    | false =>
      rw [find?_cons_neg _ a _ ha] at h
      rw [List.cons_append, find?_cons_neg _ a _ ha]
      exact find?_append_some p l₁ l₂ x h
    | true =>
      rw [find?_cons_pos _ a _ ha] at h
      rw [List.cons_append, find?_cons_pos _ a _ ha]
      exact h

lemma find?_map_set (k v : String) :
    ∀ (l : List (String × String)), l.any (fun kv => kv.1 == k) = true →
      (l.map (fun kv => if kv.1 == k then (k, v) else kv)).find? (fun kv => kv.1 == k)
        = some (k, v) := by
  intro l
  induction l with
  | nil => intro h; cases h
  | cons kv rest ih =>
    intro h
    rw [List.map_cons]
    cases hk : (kv.1 == k) with
    | true =>
      rw [if_pos rfl]
      exact find?_cons_pos (fun kv => kv.1 == k) (k, v) _ (beq_self_eq_true k)
    | false =>
      rw [if_neg Bool.false_ne_true]
      rw [find?_cons_neg (fun kv => kv.1 == k) kv _ hk]
      apply ih
      simp only [List.any_cons, hk, Bool.false_or] at h
      exact h

lemma find?_map_set_other {k k' : String} (v : String) (hne : k ≠ k') :
    ∀ (l : List (String × String)),
      (l.map (fun kv => if kv.1 == k' then (k', v) else kv)).find? (fun kv => kv.1 == k)
        = l.find? (fun kv => kv.1 == k) := by
  intro l
  induction l with
  | nil => rfl
  | cons kv rest ih =>
    rw [List.map_cons]
    cases hk' : (kv.1 == k') with
    | true =>
      rw [if_pos rfl]
      have hkv : kv.1 = k' := eq_of_beq hk'
      have hhead : ((k', v).1 == k) = false := beq_eq_false_iff_ne.mpr (Ne.symm hne)
      have hkvk : (kv.1 == k) = false := by
        rw [hkv]; exact beq_eq_false_iff_ne.mpr (Ne.symm hne)
      rw [find?_cons_neg (fun kv => kv.1 == k) (k', v) _ hhead,
        find?_cons_neg (fun kv => kv.1 == k) kv _ hkvk]
      exact ih
    | false =>
      rw [if_neg Bool.false_ne_true]
      cases hk : (kv.1 == k) with
      | true =>
        rw [find?_cons_pos (fun kv => kv.1 == k) kv _ hk,
          find?_cons_pos (fun kv => kv.1 == k) kv _ hk]
      | false =>
        rw [find?_cons_neg (fun kv => kv.1 == k) kv _ hk,
          find?_cons_neg (fun kv => kv.1 == k) kv _ hk]
        exact ih

lemma keyString_setValue_self (s : IniSection) (k v : String) :
    (s.setValue k v).keyString k = v := by
  unfold IniSection.setValue
  cases hk : s.hasKey k with
  | true =>
    rw [if_pos rfl]
    unfold IniSection.keyString
    rw [find?_map_set k v s.keys hk]
  | false =>
    rw [if_neg Bool.false_ne_true]
    unfold IniSection.keyString
    have hnone : s.keys.find? (fun kv => kv.1 == k) = none := by
      apply List.find?_eq_none.mpr
      intro x hx hxk
      have hany : s.keys.any (fun kv => kv.1 == k) = true :=
        List.any_eq_true.mpr ⟨x, hx, hxk⟩
      rw [IniSection.hasKey] at hk
      rw [hany] at hk
      cases hk
    rw [find?_append_none _ s.keys _ hnone,
      find?_cons_pos (fun kv => kv.1 == k) (k, v) []
        (show ((k, v).1 == k) = true from beq_self_eq_true k)]

lemma keyString_setValue_other (s : IniSection) (k k' v : String) (hne : k ≠ k') :
    (s.setValue k' v).keyString k = s.keyString k := by
  unfold IniSection.setValue
  cases hk' : s.hasKey k' with
  | true =>
    rw [if_pos rfl]
    unfold IniSection.keyString
    rw [find?_map_set_other v hne s.keys]
  | false =>
    rw [if_neg Bool.false_ne_true]
    unfold IniSection.keyString
    cases hf : s.keys.find? (fun kv => kv.1 == k) with
    | some kv => rw [find?_append_some _ s.keys _ kv hf]
    | none =>
      rw [find?_append_none _ s.keys _ hf,
        find?_cons_neg (fun kv => kv.1 == k) (k', v) []
          (show ((k', v).1 == k) = false from beq_eq_false_iff_ne.mpr (Ne.symm hne))]
      rfl

lemma getSection?_upsert_self (upd : IniSection → IniSection)
    (hname : ∀ s, (upd s).name = s.name) (n : String) :
    ∀ cfg : List IniSection,
      getSection? (upsertSection upd n cfg) n
        = some (upd ((getSection? cfg n).getD ⟨n, []⟩)) := by
  intro cfg
  induction cfg with
  | nil =>
    unfold upsertSection getSection?
    rw [find?_cons_pos (fun s => s.name == n) (upd ⟨n, []⟩) []
      (show ((upd ⟨n, []⟩).name == n) = true by rw [hname]; exact beq_self_eq_true n)]
    rfl
  | cons s rest ih =>
    unfold upsertSection
    cases hs : (s.name == n) with
    | true =>
      rw [if_pos rfl]
      show getSection? (upd s :: rest) n = _
      unfold getSection?
      rw [find?_cons_pos (fun t => t.name == n) (upd s) rest
          (show ((upd s).name == n) = true by rw [hname s]; exact hs),
        find?_cons_pos (fun t => t.name == n) s rest hs]
      rfl
    | false =>
      rw [if_neg Bool.false_ne_true]
      show getSection? (s :: upsertSection upd n rest) n = _
      unfold getSection?
      rw [find?_cons_neg (fun t => t.name == n) s _ hs,
        find?_cons_neg (fun t => t.name == n) s rest hs]
      exact ih

lemma getSection?_upsert_other (upd : IniSection → IniSection)
    (hname : ∀ s, (upd s).name = s.name) (n m : String) (hnm : ¬ n = m) :
    ∀ cfg : List IniSection,
      getSection? (upsertSection upd n cfg) m = getSection? cfg m := by
  intro cfg
  induction cfg with
  | nil =>
    unfold upsertSection getSection?
    rw [find?_cons_neg (fun s => s.name == m) (upd ⟨n, []⟩) []
      (show ((upd ⟨n, []⟩).name == m) = false by
        rw [hname]; exact beq_eq_false_iff_ne.mpr hnm)]
  | cons s rest ih =>
    unfold upsertSection
    cases hs : (s.name == n) with
    | true =>
      rw [if_pos rfl]
      have hsn : s.name = n := eq_of_beq hs
      have hsm : (s.name == m) = false := by
        rw [hsn]; exact beq_eq_false_iff_ne.mpr hnm
      show getSection? (upd s :: rest) m = _
      unfold getSection?
      rw [find?_cons_neg (fun t => t.name == m) (upd s) rest
          (show ((upd s).name == m) = false by rw [hname s]; exact hsm),
        find?_cons_neg (fun t => t.name == m) s rest hsm]
    | false =>
      rw [if_neg Bool.false_ne_true]
      show getSection? (s :: upsertSection upd n rest) m = _
      unfold getSection?
      cases hm : (s.name == m) with
      | true =>
        rw [find?_cons_pos (fun t => t.name == m) s _ hm,
          find?_cons_pos (fun t => t.name == m) s rest hm]
      | false =>
        rw [find?_cons_neg (fun t => t.name == m) s _ hm,
          find?_cons_neg (fun t => t.name == m) s rest hm]
        exact ih

lemma updateForAccount_dryRun {o : RunOpts} (h : o.dryRun = true)
    (startURL region pfx : String) (cfg : List IniSection) (a : AccountInfo) :
    updateForAccount o startURL region pfx cfg a = cfg := by
  unfold updateForAccount
  rw [h]
  by_cases hr : o.remove = true
  · rw [hr]; simp
  · rw [Bool.not_eq_true o.remove] at hr
    rw [hr]; simp

lemma remove_fold_subset {o : RunOpts} (h1 : o.remove = true) (h2 : o.dryRun = false)
    (startURL region pfx : String) :
    ∀ (accounts : List AccountInfo) (cfg : List IniSection) (s : IniSection),
      s ∈ accounts.foldl (updateForAccount o startURL region pfx) cfg → s ∈ cfg := by
  intro accounts
  induction accounts with
  | nil => intro cfg s hs; exact hs
  | cons a rest ih =>
    intro cfg s hs
    rw [List.foldl_cons] at hs
    have hmem := ih _ s hs
    rw [updateForAccount_remove h1 h2] at hmem
    exact (List.mem_filter.mp hmem).1

lemma remove_fold_not_mem {o : RunOpts} (h1 : o.remove = true) (h2 : o.dryRun = false)
    (startURL region pfx : String) (s : IniSection) :
    ∀ (accounts : List AccountInfo) (cfg : List IniSection) (a : AccountInfo),
      a ∈ accounts → sectionMatches startURL a.accountId o.roleName region s = true →
      s ∉ accounts.foldl (updateForAccount o startURL region pfx) cfg := by
  intro accounts
  induction accounts with
  | nil => intro cfg a ha; cases ha
  | cons b rest ih =>
    intro cfg a ha hmatch hmem
    rw [List.foldl_cons] at hmem
    rcases List.mem_cons.mp ha with rfl | ha'
    · have hsub := remove_fold_subset h1 h2 startURL region pfx rest _ s hmem
      rw [updateForAccount_remove h1 h2] at hsub
      have hpred := (List.mem_filter.mp hsub).2
      rw [hmatch] at hpred
      cases hpred
    · exact ih _ a ha' hmatch hmem

lemma remove_fold_mem {o : RunOpts} (h1 : o.remove = true) (h2 : o.dryRun = false)
    (startURL region pfx : String) (s : IniSection) :
    ∀ (accounts : List AccountInfo) (cfg : List IniSection),
      s ∈ cfg →
      (∀ a ∈ accounts, sectionMatches startURL a.accountId o.roleName region s = false) →
      s ∈ accounts.foldl (updateForAccount o startURL region pfx) cfg := by
  intro accounts
  induction accounts with
  | nil => intro cfg hmem _; exact hmem
  | cons b rest ih =>
    intro cfg hmem hno
    rw [List.foldl_cons]
    apply ih _ _ (fun a ha => hno a (List.mem_cons_of_mem b ha))
    rw [updateForAccount_remove h1 h2]
    refine List.mem_filter.mpr ⟨hmem, ?_⟩
    rw [hno b (List.mem_cons_self b rest)]
    rfl

/-- C3: for every input config file, every account list, and both apply
and remove modes, running `updateAWSConfig` with dry-run enabled changes
nothing: the in-memory config is left exactly as loaded (every mutation is
guarded by `!opts.DryRun` or skipped by `continue`) and `SaveTo` is never
reached, so the on-disk content is unchanged. -/
theorem claim_C3_dryRun (o : RunOpts) (cfg : List IniSection)
    (accounts : List AccountInfo) (startURL region profilePfx : String)
    (h : o.dryRun = true) :
    updateAWSConfig o cfg accounts startURL region profilePfx = cfg
      ∧ savedConfig o cfg accounts startURL region profilePfx = cfg := by
  have hu : updateAWSConfig o cfg accounts startURL region profilePfx = cfg := by
    unfold updateAWSConfig
    induction accounts generalizing cfg with
    | nil => rfl
    | cons a rest ih => rw [List.foldl_cons, updateForAccount_dryRun h, ih]
  refine ⟨hu, ?_⟩
  unfold savedConfig
  rw [h]
  simp

def removeOpts : RunOpts := ⟨false, true, "AdministratorAccess"⟩

def dryRemoveOpts : RunOpts := ⟨true, true, "AdministratorAccess"⟩

def applyOpts : RunOpts := ⟨false, false, "AdministratorAccess"⟩

def mockAccount : AccountInfo := ⟨"123456789012", "MockAccount"⟩

def secMock : IniSection :=
  ⟨"mock-mockaccount",
    [("sso_start_url", "https://mock-sso.awsapps.com/start"),
     ("sso_region", "us-east-1"),
     ("sso_account_id", "123456789012"),
     ("sso_role_name", "AdministratorAccess"),
     ("region", "us-east-1")]⟩

def secOtherRole : IniSection :=
  ⟨"other-role",
    [("sso_start_url", "https://mock-sso.awsapps.com/start"),
     ("sso_region", "us-east-1"),
     ("sso_account_id", "123456789012"),
     ("sso_role_name", "ReadOnlyAccess"),
     ("region", "us-east-1")]⟩

def secFour : IniSection :=
  ⟨"four-keys-only",
    [("sso_start_url", "https://mock-sso.awsapps.com/start"),
     ("sso_account_id", "123456789012"),
     ("sso_role_name", "AdministratorAccess"),
     ("region", "us-east-1")]⟩

theorem claim_C3_dryRun_witness :
    dryRemoveOpts.dryRun = true ∧
      (updateAWSConfig dryRemoveOpts [secMock] [mockAccount]
          "https://mock-sso.awsapps.com/start" "us-east-1" "mock" = [secMock]
        ∧ savedConfig dryRemoveOpts [secMock] [mockAccount]
            "https://mock-sso.awsapps.com/start" "us-east-1" "mock" = [secMock]) :=
  ⟨rfl, claim_C3_dryRun dryRemoveOpts [secMock] [mockAccount]
    "https://mock-sso.awsapps.com/start" "us-east-1" "mock" rfl⟩

/-- C6: given an empty config file and the single account named
"MockAccount" with id "123456789012", role-name "AdministratorAccess",
region "us-east-1", start-url "https://mock-sso.awsapps.com/start" and
prefix "mock", apply mode produces exactly one section, named
"mock-mockaccount", whose keys `sso_start_url`, `sso_region`,
`sso_account_id`, `sso_role_name` and `region` hold exactly those literal
values. -/
theorem claim_C6_mockAccount :
    updateAWSConfig applyOpts [] [mockAccount]
        "https://mock-sso.awsapps.com/start" "us-east-1" "mock"
      = [⟨"mock-mockaccount",
          [("sso_start_url", "https://mock-sso.awsapps.com/start"),
           ("sso_region", "us-east-1"),
           ("sso_account_id", "123456789012"),
           ("sso_role_name", "AdministratorAccess"),
           ("region", "us-east-1")]⟩] := by
  decide

/-- C4: in removal mode (not preview), every existing section whose four
identifying keys `sso_start_url`, `sso_account_id`, `sso_role_name`,
`region` are present and equal the run's start-url, some listed account's
id, the run's role-name and region is deleted, and a section whose
`sso_role_name` value differs from the run's role-name is left untouched. -/
theorem claim_C4_removal (o : RunOpts) (cfg : List IniSection)
    (accounts : List AccountInfo) (startURL region profilePfx : String)
    (s : IniSection) (h1 : o.remove = true) (h2 : o.dryRun = false) :
    ((∃ a, a ∈ accounts ∧ sectionMatches startURL a.accountId o.roleName region s = true) →
        s ∉ updateAWSConfig o cfg accounts startURL region profilePfx)
      ∧ (s ∈ cfg → s.keyString "sso_role_name" ≠ o.roleName →
          s ∈ updateAWSConfig o cfg accounts startURL region profilePfx) := by
  constructor
  · rintro ⟨a, ha, hm⟩
    exact remove_fold_not_mem h1 h2 startURL region (effectivePfx profilePfx) s
      accounts cfg a ha hm
  · intro hmem hne
    apply remove_fold_mem h1 h2 startURL region (effectivePfx profilePfx) s accounts cfg hmem
    intro a ha
    cases hx : sectionMatches startURL a.accountId o.roleName region s with
    | false => rfl
    | true => exact absurd (sectionMatches_roleName hx) hne

theorem claim_C4_removal_witness :
    removeOpts.remove = true ∧ removeOpts.dryRun = false
      ∧ secMock ∉ updateAWSConfig removeOpts [secMock, secOtherRole] [mockAccount]
          "https://mock-sso.awsapps.com/start" "us-east-1" "mock"
      ∧ secOtherRole ∈ updateAWSConfig removeOpts [secMock, secOtherRole] [mockAccount]
          "https://mock-sso.awsapps.com/start" "us-east-1" "mock" :=
  ⟨rfl, rfl,
   (claim_C4_removal removeOpts [secMock, secOtherRole] [mockAccount]
      "https://mock-sso.awsapps.com/start" "us-east-1" "mock" secMock rfl rfl).1
     ⟨mockAccount, by decide, by decide⟩,
   (claim_C4_removal removeOpts [secMock, secOtherRole] [mockAccount]
      "https://mock-sso.awsapps.com/start" "us-east-1" "mock" secOtherRole rfl rfl).2
     (by decide) (by decide)⟩

/-- C1 (amended): in removal mode, a section is deleted only if the FOUR
keys `sso_start_url`, `sso_account_id`, `sso_role_name` and `region` are all
present and match the current run's start-url, some listed account's id, the
run's role-name and region; the fifth key `sso_region` is neither required
to be present nor examined. -/
theorem claim_C1_managed (o : RunOpts) (cfg : List IniSection)
    (accounts : List AccountInfo) (startURL region profilePfx : String)
    (s : IniSection) (h1 : o.remove = true) (h2 : o.dryRun = false)
    (hmem : s ∈ cfg)
    (hgone : s ∉ updateAWSConfig o cfg accounts startURL region profilePfx) :
    ∃ a, a ∈ accounts ∧ sectionMatches startURL a.accountId o.roleName region s = true := by
  by_contra hno
  push_neg at hno
  apply hgone
  apply remove_fold_mem h1 h2 startURL region (effectivePfx profilePfx) s accounts cfg hmem
  intro a ha
  cases hx : sectionMatches startURL a.accountId o.roleName region s with
  | false => rfl
  | true => exact absurd hx (hno a ha)

theorem claim_C1_managed_witness :
    ∃ a, a ∈ [mockAccount]
      ∧ sectionMatches "https://mock-sso.awsapps.com/start" a.accountId
          removeOpts.roleName "us-east-1" secFour = true :=
  claim_C1_managed removeOpts [secFour] [mockAccount]
    "https://mock-sso.awsapps.com/start" "us-east-1" "mock" secFour rfl rfl
    (by decide) (by decide)

/-- C1 counterexample: a section holding only the four checked keys —
`sso_region` is absent — is still deleted by removal mode, so "for every
section that removal mode deletes, all five keys were present" is false. -/
theorem claim_C1_cex :
    secFour.hasKey "sso_region" = false
      ∧ updateAWSConfig removeOpts [secFour] [mockAccount]
          "https://mock-sso.awsapps.com/start" "us-east-1" "mock" = [] := by
  decide

/-- The C10 invariant: the config has a section named `n` whose
`sso_region` and `region` keys both hold `region`. -/
def regionKeysSet (region n : String) (cfg : List IniSection) : Prop :=
  ∃ s, getSection? cfg n = some s
    ∧ s.keyString "sso_region" = region ∧ s.keyString "region" = region

lemma setProfileKeys_regions (startURL region accountId roleName : String) (s : IniSection) :
    (setProfileKeys startURL region accountId roleName s).keyString "sso_region" = region
      ∧ (setProfileKeys startURL region accountId roleName s).keyString "region" = region := by
  unfold setProfileKeys
  constructor
  · rw [keyString_setValue_other _ "sso_region" "region" _ (by decide),
      keyString_setValue_other _ "sso_region" "sso_role_name" _ (by decide),
      keyString_setValue_other _ "sso_region" "sso_account_id" _ (by decide)]
    exact keyString_setValue_self _ "sso_region" region
  · exact keyString_setValue_self _ "region" region

lemma apply_step_establishes {o : RunOpts} (h1 : o.remove = false) (h2 : o.dryRun = false)
    (startURL region pfx : String) (cfg : List IniSection) (a : AccountInfo) :
    regionKeysSet region (profileNameFor pfx a)
      (updateForAccount o startURL region pfx cfg a) := by
  rw [updateForAccount_apply h1 h2]
  exact ⟨setProfileKeys startURL region a.accountId o.roleName
      ((getSection? cfg (profileNameFor pfx a)).getD ⟨profileNameFor pfx a, []⟩),
    getSection?_upsert_self _ (setProfileKeys_name startURL region a.accountId o.roleName) _ cfg,
    (setProfileKeys_regions _ _ _ _ _).1,
    (setProfileKeys_regions _ _ _ _ _).2⟩

lemma apply_step_preserves {o : RunOpts} (h1 : o.remove = false) (h2 : o.dryRun = false)
    (startURL region pfx : String) (cfg : List IniSection) (b : AccountInfo) (n : String)
    (h : regionKeysSet region n cfg) :
    regionKeysSet region n (updateForAccount o startURL region pfx cfg b) := by
  by_cases hn : profileNameFor pfx b = n
  · subst hn
    exact apply_step_establishes h1 h2 startURL region pfx cfg b
  · rw [updateForAccount_apply h1 h2]
    rcases h with ⟨s, hs, hr1, hr2⟩
    exact ⟨s, by
      rw [getSection?_upsert_other _
        (setProfileKeys_name startURL region b.accountId o.roleName) _ _ hn cfg]
      exact hs, hr1, hr2⟩

lemma apply_fold_preserves {o : RunOpts} (h1 : o.remove = false) (h2 : o.dryRun = false)
    (startURL region pfx : String) (n : String) :
    ∀ (accounts : List AccountInfo) (cfg : List IniSection),
      regionKeysSet region n cfg →
      regionKeysSet region n
        (accounts.foldl (updateForAccount o startURL region pfx) cfg) := by
  intro accounts
  induction accounts with
  | nil => intro cfg h; exact h
  | cons b rest ih =>
    intro cfg h
    rw [List.foldl_cons]
    exact ih _ (apply_step_preserves h1 h2 startURL region pfx cfg b n h)

lemma apply_fold_mem {o : RunOpts} (h1 : o.remove = false) (h2 : o.dryRun = false)
    (startURL region pfx : String) :
    ∀ (accounts : List AccountInfo) (cfg : List IniSection) (a : AccountInfo),
      a ∈ accounts →
      regionKeysSet region (profileNameFor pfx a)
        (accounts.foldl (updateForAccount o startURL region pfx) cfg) := by
  intro accounts
  induction accounts with
  | nil => intro cfg a ha; cases ha
  | cons b rest ih =>
    intro cfg a ha
    rw [List.foldl_cons]
    rcases List.mem_cons.mp ha with rfl | ha'
    · exact apply_fold_preserves h1 h2 startURL region pfx _ rest _
        (apply_step_establishes h1 h2 startURL region pfx cfg a)
    · exact ih _ a ha'

/-- C10: every section written by apply mode satisfies
`sso_region = region`: for every listed account, the section under its
derived profile name in the resulting config holds the run's effective
region under both the `sso_region` and the `region` key. -/
theorem claim_C10_sameRegion (o : RunOpts) (cfg : List IniSection)
    (accounts : List AccountInfo) (startURL region profilePfx : String)
    (a : AccountInfo) (h1 : o.remove = false) (h2 : o.dryRun = false)
    (ha : a ∈ accounts) :
    ∃ s, getSection? (updateAWSConfig o cfg accounts startURL region profilePfx)
          (profileNameFor (effectivePfx profilePfx) a) = some s
      ∧ s.keyString "sso_region" = region ∧ s.keyString "region" = region :=
  apply_fold_mem h1 h2 startURL region (effectivePfx profilePfx) accounts cfg a ha

theorem claim_C10_sameRegion_witness :
    ∃ s, getSection? (updateAWSConfig applyOpts [] [mockAccount]
          "https://mock-sso.awsapps.com/start" "us-east-1" "mock")
          (profileNameFor (effectivePfx "mock") mockAccount) = some s
      ∧ s.keyString "sso_region" = "us-east-1" ∧ s.keyString "region" = "us-east-1" :=
  claim_C10_sameRegion applyOpts [] [mockAccount]
    "https://mock-sso.awsapps.com/start" "us-east-1" "mock" mockAccount rfl rfl
    (by decide)

/-! ## Account & role enumeration — `listSSOAccounts` and
`validateRoleForAccount` (main.go lines 149-214)

The remote `ListAccounts` endpoint is a function from the continuation
token (`nil` for the first call) to a response page; the `ListAccountRoles`
endpoint is, per account id, the list of successive response pages the
loop consumes. -/

/-- One response of the paginated `ListAccounts` endpoint. -/
structure AccountPage where
  accountList : List AccountInfo
  nextToken : Option String
deriving DecidableEq, Repr

/-- One response of the paginated `ListAccountRoles` endpoint (only the
role names matter to the code). -/
structure RolePage where
  roleList : List String
  nextToken : Option String
deriving DecidableEq, Repr

/-- `validateRoleForAccount` (main.go lines 189-214) over the successive
responses the server returns for one account: return true as soon as a page
contains the role name, continue only while the response carries a
continuation token. The `[]` case is unreachable for a well-formed response
sequence, whose last page carries no token. -/
def validateRoleForAccount (roleName : String) : List RolePage → Bool
  | [] => false
  | p :: rest =>
    if p.roleList.any (fun r => r == roleName) then true
    else
      match p.nextToken with
      | none => false
      | some _ => validateRoleForAccount roleName rest

/-- The body of the account loop (main.go lines 164-177): with a role-name
filter set the account is kept only when `validateRoleForAccount` succeeds
on its role pages. -/
def keepAccount (roleName : String) (roleSrv : String → List RolePage)
    (a : AccountInfo) : Bool :=
  roleName == "" || validateRoleForAccount roleName (roleSrv a.accountId)

/-- The `for { ... }` pagination loop of `listSSOAccounts` (main.go lines
155-185): call the server on the current continuation token, filter the
returned accounts, stop when the response has no `NextToken`, else repeat
with the response's token. `fuel` bounds the number of remote calls; `none`
models running out of fuel (a server that never stops paginating). -/
def listAccountsLoop (srv : Option String → AccountPage)
    (roleSrv : String → List RolePage) (roleName : String) :
    Nat → Option String → Option (List AccountInfo)
  | 0, _ => none
  | Nat.succ fuel, tok =>
    let resp := srv tok
    let accs := resp.accountList.filter (keepAccount roleName roleSrv)
    match resp.nextToken with
    | none => some accs
    | some t =>
      match listAccountsLoop srv roleSrv roleName fuel (some t) with
      | none => none
      | some rest => some (accs ++ rest)

/-- `listSSOAccounts` (main.go lines 149-187): the loop starts with a nil
continuation token. -/
def listSSOAccounts (srv : Option String → AccountPage)
    (roleSrv : String → List RolePage) (roleName : String) (fuel : Nat) :
    Option (List AccountInfo) :=
  listAccountsLoop srv roleSrv roleName fuel none

/-- The successive responses the server hands out when each response's
continuation token is fed into the next call, starting from token `tok`;
only the last page of the chain carries no token. -/
inductive PageChain (srv : Option String → AccountPage) :
    Option String → List AccountPage → Prop
  | last {tok : Option String} {p : AccountPage} :
      srv tok = p → p.nextToken = none → PageChain srv tok [p]
  | cons {tok : Option String} {p : AccountPage} {t : String} {ps : List AccountPage} :
      srv tok = p → p.nextToken = some t → PageChain srv (some t) ps →
      PageChain srv tok (p :: ps)

/-- A well-formed response sequence for one account's role listing: every
page except the last carries a continuation token, the last does not. -/
def rolePagesWF : List RolePage → Bool
  | [] => false
  | p :: rest =>
    match rest with
    | [] => p.nextToken.isNone
    | _ :: _ => p.nextToken.isSome && rolePagesWF rest

lemma listAccountsLoop_chain (srv : Option String → AccountPage)
    (roleSrv : String → List RolePage) (roleName : String) :
    ∀ {tok : Option String} {ps : List AccountPage}, PageChain srv tok ps →
      ∀ fuel : Nat, ps.length ≤ fuel →
      listAccountsLoop srv roleSrv roleName fuel tok
        = some ((ps.map
            (fun p => p.accountList.filter (keepAccount roleName roleSrv))).flatten) := by
  intro tok ps hchain
  induction hchain with
  | @last tok p hsrv hnone =>
    intro fuel hfuel
    cases fuel with
    | zero => simp at hfuel
    | succ f =>
      simp only [listAccountsLoop, hsrv, hnone, List.map_cons, List.map_nil,
        List.flatten_cons, List.flatten_nil, List.append_nil]
  | @cons tok p t ps hsrv hsome hrest ih =>
    intro fuel hfuel
    cases fuel with
    | zero => simp at hfuel
    | succ f =>
      have hlen : ps.length ≤ f := by
        simp only [List.length_cons] at hfuel
        omega
      simp only [listAccountsLoop, hsrv, hsome]
      rw [ih f hlen]
      simp [List.flatten_cons]

/-- C7: account enumeration repeats the remote listing call, passing
each response's continuation token into the next call, until a response
returns no continuation token, and (with no role filter) the returned
account list is the concatenation of all pages' items in order. -/
theorem claim_C7_pagination (srv : Option String → AccountPage)
    (roleSrv : String → List RolePage) (ps : List AccountPage) (fuel : Nat)
    (hchain : PageChain srv none ps) (hfuel : ps.length ≤ fuel) :
    listSSOAccounts srv roleSrv "" fuel
      = some ((ps.map (fun p => p.accountList)).flatten) := by
  unfold listSSOAccounts
  rw [listAccountsLoop_chain srv roleSrv "" hchain fuel hfuel]
  have hfilter : ∀ p : AccountPage,
      p.accountList.filter (keepAccount "" roleSrv) = p.accountList := by
    intro p
    exact List.filter_eq_self.mpr (fun a _ => rfl)
  have hmap : ∀ qs : List AccountPage,
      qs.map (fun p => p.accountList.filter (keepAccount "" roleSrv))
        = qs.map (fun p => p.accountList) := by
    intro qs
    induction qs with
    | nil => rfl
    | cons q rest ih => rw [List.map_cons, List.map_cons, ih, hfilter q]
  rw [hmap ps]

def acctOne : AccountInfo := ⟨"111111111111", "One"⟩

def acctTwo : AccountInfo := ⟨"222222222222", "Two"⟩

def pageOne : AccountPage := ⟨[acctOne], some "page2"⟩

def pageTwo : AccountPage := ⟨[acctTwo], none⟩

def twoPageSrv : Option String → AccountPage
  | none => pageOne
  | some _ => pageTwo

def noRoleSrv : String → List RolePage := fun _ => [⟨[], none⟩]

theorem claim_C7_pagination_witness :
    listSSOAccounts twoPageSrv noRoleSrv "" 2 = some [acctOne, acctTwo] := by
  have h := claim_C7_pagination twoPageSrv noRoleSrv [pageOne, pageTwo] 2
    (PageChain.cons rfl rfl (PageChain.last rfl rfl)) (by decide)
  rw [h]
  decide

lemma validateRoleForAccount_wf (roleName : String) :
    ∀ ps : List RolePage, rolePagesWF ps = true →
      (validateRoleForAccount roleName ps = true ↔
        roleName ∈ (ps.map (fun p => p.roleList)).flatten) := by
  intro ps
  induction ps with
  | nil => intro h; cases h
  | cons p rest ih =>
    intro h
    simp only [validateRoleForAccount]
    cases hany : p.roleList.any (fun r => r == roleName) with
    | true =>
      rw [if_pos rfl]
      simp only [List.map_cons, List.flatten_cons]
      constructor
      · intro _
        rcases List.any_eq_true.mp hany with ⟨r, hr, hbeq⟩
        have hr' : r = roleName := eq_of_beq hbeq
        subst hr'
        exact List.mem_append.mpr (Or.inl hr)
      · intro _; trivial
    | false =>
      rw [if_neg Bool.false_ne_true]
      cases rest with
      | nil =>
        simp only [rolePagesWF] at h
        have hnone : p.nextToken = none := Option.isNone_iff_eq_none.mp h
        rw [hnone]
        simp only [List.map_cons, List.map_nil, List.flatten_cons, List.flatten_nil,
          List.append_nil]
        constructor
        · intro hf; cases hf
        · intro hmem
          exfalso
          have : p.roleList.any (fun r => r == roleName) = true :=
            List.any_eq_true.mpr ⟨roleName, hmem, beq_self_eq_true roleName⟩
          rw [hany] at this
          cases this
      | cons q rest' =>
        simp only [rolePagesWF, Bool.and_eq_true] at h
        obtain ⟨t, ht⟩ := Option.isSome_iff_exists.mp h.1
        rw [ht]
        show validateRoleForAccount roleName (q :: rest') = true ↔ _
        rw [ih h.2]
        simp only [List.map_cons, List.flatten_cons]
        constructor
        · intro hm
          exact List.mem_append.mpr (Or.inr hm)
        · intro hm
          rcases List.mem_append.mp hm with hl | hr
          · exfalso
            have : p.roleList.any (fun r => r == roleName) = true :=
              List.any_eq_true.mpr ⟨roleName, hl, beq_self_eq_true roleName⟩
            rw [hany] at this
            cases this
          · exact hr

lemma join_map_filter (p : AccountInfo → Bool) :
    ∀ ps : List AccountPage,
      ((ps.map (fun pg => pg.accountList.filter p)).flatten)
        = ((ps.map (fun pg => pg.accountList)).flatten).filter p := by
  intro ps
  induction ps with
  | nil => rfl
  | cons q rest ih =>
    simp only [List.map_cons, List.flatten_cons, List.filter_append, ih]

lemma count_filter_of_pos {α : Type} [DecidableEq α] (p : α → Bool) (a : α)
    (hp : p a = true) :
    ∀ l : List α, (l.filter p).count a = l.count a := by
  intro l
  induction l with
  | nil => rfl
  | cons b rest ih =>
    cases hb : p b with
    | true =>
      rw [filter_cons_pos p b rest hb, List.count_cons, List.count_cons, ih]
    | false =>
      have hba : (b == a) = false := by
        cases hq : (b == a) with
        | false => rfl
        | true =>
          have hab : b = a := eq_of_beq hq
          subst hab
          rw [hp] at hb
          cases hb
      rw [filter_cons_neg p b rest hb, List.count_cons, hba, ih]
      simp

/-- C5: when a role-name filter is set, for every enumerated account
`a`, `a` appears in the returned account list iff the remote role list for
`a` contains a role whose name equals the filter exactly (case-sensitive
string equality); and a matching account appears exactly as often as it is
enumerated — in particular, an account enumerated once appears exactly
once. -/
theorem claim_C5_roleFilter (srv : Option String → AccountPage)
    (roleSrv : String → List RolePage) (roleName : String)
    (ps : List AccountPage) (fuel : Nat) (res : List AccountInfo)
    (hchain : PageChain srv none ps) (hfuel : ps.length ≤ fuel)
    (hrole : roleName ≠ "")
    (hwf : ∀ accountId, rolePagesWF (roleSrv accountId) = true)
    (hres : listSSOAccounts srv roleSrv roleName fuel = some res) :
    (∀ a : AccountInfo, a ∈ res ↔
        a ∈ (ps.map (fun p => p.accountList)).flatten
          ∧ roleName ∈ ((roleSrv a.accountId).map (fun p => p.roleList)).flatten)
      ∧ ∀ a : AccountInfo,
          roleName ∈ ((roleSrv a.accountId).map (fun p => p.roleList)).flatten →
          res.count a = ((ps.map (fun p => p.accountList)).flatten).count a := by
  have hres' : res = ((ps.map (fun p => p.accountList)).flatten).filter
      (keepAccount roleName roleSrv) := by
    rw [listSSOAccounts, listAccountsLoop_chain srv roleSrv roleName hchain fuel hfuel] at hres
    injection hres with h'
    rw [← h']
    exact join_map_filter _ ps
  have hkeep : ∀ a : AccountInfo,
      keepAccount roleName roleSrv a = true ↔
        roleName ∈ ((roleSrv a.accountId).map (fun p => p.roleList)).flatten := by
    intro a
    unfold keepAccount
    rw [beq_eq_false_iff_ne.mpr hrole, Bool.false_or]
    exact validateRoleForAccount_wf roleName _ (hwf a.accountId)
  constructor
  · intro a
    rw [hres', List.mem_filter, hkeep a]
  · intro a hmem
    rw [hres']
    exact count_filter_of_pos _ a ((hkeep a).mpr hmem) _

def singlePage : AccountPage := ⟨[acctOne, acctTwo], none⟩

def onePageSrv : Option String → AccountPage := fun _ => singlePage

def rolesFor : String → List RolePage := fun accountId =>
  if accountId == "111111111111" then [⟨["AdministratorAccess"], none⟩]
  else [⟨["ReadOnlyAccess"], none⟩]

theorem claim_C5_roleFilter_witness :
    (∀ a : AccountInfo, a ∈ [acctOne] ↔
        a ∈ (([singlePage] : List AccountPage).map (fun p => p.accountList)).flatten
          ∧ "AdministratorAccess"
              ∈ ((rolesFor a.accountId).map (fun p => p.roleList)).flatten)
      ∧ ∀ a : AccountInfo,
          "AdministratorAccess" ∈ ((rolesFor a.accountId).map (fun p => p.roleList)).flatten →
          List.count a [acctOne]
            = List.count a ((([singlePage] : List AccountPage).map
                (fun p => p.accountList)).flatten) :=
  claim_C5_roleFilter onePageSrv rolesFor "AdministratorAccess" [singlePage] 1 [acctOne]
    (PageChain.last rfl rfl) (by decide) (by decide)
    (by
      intro accountId
      unfold rolesFor
      split <;> rfl)
    rfl

end AwsSsoConfig
